import Mathlib

/-!
Verification of the drops-game Monte Carlo simulator and greedy threshold
optimizer (`src/main.rs`).

The Rust code is shallowly embedded: `f64` values are modelled as rationals,
the thread-local random generator as an oracle stream `rolls : ℕ → ℚ`
together with an explicit index into the stream carried in the simulation
state (a roll is consumed only on the steps where the code actually calls
`rng.gen()`), and `usize` counters as `ℕ`.
-/

/-- The simulation configuration fields of the `Args` struct (`main.rs`,
`Args`): `base_drop_rate`, `counter_multiplier`, `max_counter_value`,
`sim_steps_per_strategy`. The two `f64` fields are modelled as rationals. -/
structure Args where
  base_drop_rate : ℚ
  counter_multiplier : ℚ
  max_counter_value : ℕ
  sim_steps_per_strategy : ℕ

/-- The loop-carried state of `simulate_strategy`: the pity counter, the drop
count, and the position in the random stream (how many rolls have been
drawn so far). -/
structure SimState where
  counter : ℕ
  drops : ℕ
  rollIdx : ℕ

/-- One iteration of the `for` loop in `simulate_strategy` (`main.rs` lines
29-57), translated clause by clause from the Rust source: evaluate the
strategy on the pre-kill counter, increment the counter, take the guaranteed
pity drop when the counter reached `max_counter_value` (consuming no roll),
otherwise compute `drop_chance`, draw one roll and compare strictly. -/
def simStep (args : Args) (strat : ℕ → Bool) (rolls : ℕ → ℚ) (s : SimState) :
    SimState :=
  let counter_active := strat s.counter
  let counter := s.counter + 1
  if counter ≥ args.max_counter_value then
    { counter := 0, drops := s.drops + 1, rollIdx := s.rollIdx }
  else
    let drop_chance :=
      if counter_active then
        args.base_drop_rate + args.counter_multiplier * (counter : ℚ)
      else
        args.base_drop_rate
    let drop_roll := rolls s.rollIdx
    if drop_roll < drop_chance then
      { counter := if counter_active then 0 else counter,
        drops := s.drops + 1,
        rollIdx := s.rollIdx + 1 }
    else
      { counter := counter, drops := s.drops, rollIdx := s.rollIdx + 1 }

/-- `simulate_strategy` (`main.rs` lines 23-60): run `sim_steps_per_strategy`
iterations from `counter = 0, drops = 0` and return the drop count. -/
def simulate_strategy (args : Args) (strat : ℕ → Bool) (rolls : ℕ → ℚ) : ℕ :=
  ((simStep args strat rolls)^[args.sim_steps_per_strategy]
    { counter := 0, drops := 0, rollIdx := 0 }).drops

/-- Reference step function written from the specification's numbered
algorithm (spec 4.2, steps 1-6), for comparison with the code's `simStep`:
1. `active = decide(counter)` on the pre-kill counter; 2. `counter += 1`;
3. pity check, no roll drawn; 4. `drop_chance = base_drop_rate +
(active ? counter_multiplier * counter : 0)`, no clamping; 5. draw `roll`,
on `roll < drop_chance` add a drop and reset the counter only when active. -/
def specStep (args : Args) (strat : ℕ → Bool) (rolls : ℕ → ℚ) (s : SimState) :
    SimState :=
  let active := strat s.counter
  let s1 : SimState := { s with counter := s.counter + 1 }
  if s1.counter ≥ args.max_counter_value then
    { s1 with drops := s1.drops + 1, counter := 0 }
  else
    let drop_chance := args.base_drop_rate +
      (if active then args.counter_multiplier * (s1.counter : ℚ) else 0)
    let roll := rolls s1.rollIdx
    let s2 : SimState := { s1 with rollIdx := s1.rollIdx + 1 }
    if roll < drop_chance then
      { s2 with drops := s2.drops + 1, counter := if active then 0 else s2.counter }
    else
      s2

/-- Reference simulation from the specification's words: iterate the
reference step function `steps_per_strategy` times from `counter = 0,
drops = 0` and return the final drop count. -/
def specSimulate (args : Args) (strat : ℕ → Bool) (rolls : ℕ → ℚ) : ℕ :=
  ((specStep args strat rolls)^[args.sim_steps_per_strategy]
    { counter := 0, drops := 0, rollIdx := 0 }).drops

/-- `NaiveThreshold::decide` (`main.rs` lines 62-67): active iff
`counter > t`. -/
def naiveThresholdDecide (t : ℕ) (counter : ℕ) : Bool :=
  decide (counter > t)

/-- `NaiveInverseThreshold::decide` (`main.rs` lines 69-74): active iff
`counter < t`. -/
def naiveInverseThresholdDecide (t : ℕ) (counter : ℕ) : Bool :=
  decide (counter < t)

/-- `XorInverseThresholds::decide` (`main.rs` lines 76-82): active iff the
number of thresholds `t` in the list with `counter > t` is even. -/
def xorInverseThresholdsDecide (ts : List ℕ) (counter : ℕ) : Bool :=
  (ts.filter (fun t => decide (counter > t))).length % 2 == 0

/-- `XorThresholds::decide` (`main.rs` lines 84-90): active iff the number of
thresholds `t` in the list with `counter < t` is even. -/
def xorThresholdsDecide (ts : List ℕ) (counter : ℕ) : Bool :=
  (ts.filter (fun t => decide (counter < t))).length % 2 == 0

example : simulate_strategy ⟨0, 0, 1, 10⟩ (fun _ => true) (fun _ => 0) = 10 := by
  decide

example : xorInverseThresholdsDecide [3, 7] 5 = false := by decide

example : naiveThresholdDecide 5 3 = false ∧ naiveThresholdDecide 5 6 = true := by
  decide

example : xorThresholdsDecide [3, 7] 5 = false := by decide

/-- One comparison step of Rust's `Iterator::max_by_key` on `(index, drops)`
pairs keyed by the drop count: the current best is kept only when its key is
strictly greater, so on equal keys the later element wins. -/
def maxByKeyStep (acc : Option (ℕ × ℕ)) (p : ℕ × ℕ) : Option (ℕ × ℕ) :=
  match acc with
  | none => some p
  | some q => if q.2 > p.2 then some q else some p

/-- The same comparison step once the accumulator is populated. -/
def maxPairStep (q p : ℕ × ℕ) : ℕ × ℕ :=
  if q.2 > p.2 then q else p

/-- The selection step of the optimizer (`main.rs` lines 142-146):
`results.iter().enumerate().max_by_key(|(_, d)| d)`, which returns the last
maximal element. -/
def maxByKeyLast (l : List ℕ) : Option (ℕ × ℕ) :=
  l.enum.foldl maxByKeyStep none

/-- The optimizer's toggle step (`main.rs` lines 155-159): if the selected
index is already in `thresholds`, retain only the other elements; otherwise
push it. -/
def toggle (thresholds : List ℕ) (i : ℕ) : List ℕ :=
  if i ∈ thresholds then
    thresholds.filter (fun x => x != i)
  else
    thresholds ++ [i]

/-- One evaluation sweep of the optimizer (`main.rs` lines 123-139): for each
`strategy_index` in `0..max_counter_value + 1`, clone the committed
thresholds, push `strategy_index`, and simulate the resulting
`XorInverseThresholds` strategy. `rolls i` is candidate `i`'s private random
stream (each parallel task owns a fresh generator); result placement is by
candidate index, so the parallel map is embedded as an ordered map. -/
def runRound (args : Args) (thresholds : List ℕ) (rolls : ℕ → ℕ → ℚ) :
    List ℕ :=
  (List.range (args.max_counter_value + 1)).map
    (fun strategy_index =>
      simulate_strategy args
        (xorInverseThresholdsDecide (thresholds ++ [strategy_index]))
        (rolls strategy_index))

/-- The optimizer loop of `main` (`main.rs` lines 115-162), with explicit
fuel standing for the unbounded `loop` (the code imposes no iteration cap):
run a sweep, select with `maxByKeyLast`, halt returning the round's results
and the untouched thresholds when the selected index is the sentinel
`num_strategies - 1`, otherwise toggle and continue. `roundRolls fuel` is
the round's family of per-candidate random streams. -/
def searchLoop (args : Args) (roundRolls : ℕ → ℕ → ℕ → ℚ) :
    ℕ → List ℕ → Option (List ℕ × List ℕ)
  | 0, _ => none
  | fuel + 1, thresholds =>
    match maxByKeyLast (runRound args thresholds (roundRolls fuel)) with
    | none => none
    | some (max_strategy, _) =>
      if max_strategy = args.max_counter_value + 1 - 1 then
        some (runRound args thresholds (roundRolls fuel), thresholds)
      else
        searchLoop args roundRolls fuel (toggle thresholds max_strategy)

/-- Written from the specification's words, for comparison with the code's
candidate construction: the set union `thresholds ∪ {t}` on duplicate-free
lists (if `t` is already a member the set is unchanged, otherwise `t` is
adjoined). -/
def unionThresholds (thresholds : List ℕ) (t : ℕ) : List ℕ :=
  if t ∈ thresholds then thresholds else thresholds ++ [t]

/-- Modelled from the spec: the non-search mode (spec 4.4, last paragraph)
is absent from `src/main.rs`, whose `main` unconditionally runs the
optimizer loop; only the `NaiveInverseThreshold` strategy family it would
sweep is declared (and never constructed) in the source. Following the
spec's words: a single evaluation sweep over the strategy family
`active iff counter < strategy_index` across `0..=max_counter_value`, with
no optimization loop, reporting the drop count of every candidate. -/
def nonSearchSweep (args : Args) (rolls : ℕ → ℕ → ℚ) : List ℕ :=
  (List.range (args.max_counter_value + 1)).map
    (fun strategy_index =>
      simulate_strategy args
        (fun counter => decide (counter < strategy_index))
        (rolls strategy_index))

lemma simStep_eq_specStep (args : Args) (strat : ℕ → Bool) (rolls : ℕ → ℚ) :
    simStep args strat rolls = specStep args strat rolls := by
  funext s
  unfold simStep specStep
  by_cases hact : strat s.counter
  · simp only [hact, if_true]
  · simp only [hact, Bool.false_eq_true, if_false, add_zero]

/-- C1: for every configuration, strategy and random stream, the code's
`simulate_strategy` computes exactly the specification's reference
simulation: `steps_per_strategy` iterations from `counter = 0, drops = 0`
of the reference step (decide on the pre-kill counter, increment, pity
check consuming no roll, unclamped `drop_chance`, strict roll comparison,
counter reset on a random drop only when active). -/
theorem simulate_strategy_eq_specSimulate (args : Args) (strat : ℕ → Bool)
    (rolls : ℕ → ℚ) :
    simulate_strategy args strat rolls = specSimulate args strat rolls := by
  unfold simulate_strategy specSimulate
  rw [simStep_eq_specStep]

lemma xorInverse_append_erase (ts : List ℕ) (t : ℕ) (h : t ∈ ts) (c : ℕ) :
    xorInverseThresholdsDecide (ts ++ [t]) c =
    xorInverseThresholdsDecide (ts.erase t) c := by
  have hperm : List.countP (fun x => decide (c > x)) ts
      = List.countP (fun x => decide (c > x)) (t :: ts.erase t) :=
    (List.perm_cons_erase h).countP_eq _
  rw [List.countP_cons] at hperm
  simp only [xorInverseThresholdsDecide, ← List.countP_eq_length_filter,
    List.countP_append, List.countP_cons, List.countP_nil]
  by_cases hpt : c > t
  · have hd : decide (c > t) = true := decide_eq_true hpt
    simp only [hd, eq_self_iff_true, if_true, Nat.zero_add] at hperm ⊢
    rw [hperm]
    have h2 : ∀ a : ℕ, (a + 1 + 1) % 2 = a % 2 := by omega
    rw [h2]
  · have hd : decide (c > t) = false := decide_eq_false hpt
    simp only [hd, Bool.false_eq_true, if_false, Nat.add_zero, Nat.zero_add]
      at hperm ⊢
    rw [hperm]

/-- C9: the decision of `XorInverseThresholds` depends only on the parity of
each threshold's multiplicity: for a list containing `t` exactly once,
appending another `t` (as the optimizer's candidate construction does)
decides identically to the list with `t` removed, for every counter. -/
theorem xorInverse_push_duplicate (ts : List ℕ) (t : ℕ)
    (h : ts.count t = 1) (c : ℕ) :
    xorInverseThresholdsDecide (ts ++ [t]) c =
    xorInverseThresholdsDecide (ts.erase t) c :=
  xorInverse_append_erase ts t (by rw [← List.count_pos_iff]; omega) c

/-- Witness for C9 at the concrete input `ts = [2, 5]`, `t = 2`,
`counter = 3`. -/
theorem xorInverse_push_duplicate_witness :
    xorInverseThresholdsDecide ([2, 5] ++ [2]) 3 =
    xorInverseThresholdsDecide (([2, 5] : List ℕ).erase 2) 3 :=
  xorInverse_push_duplicate [2, 5] 2 (by decide) 3

/-- C2 counterexample: with committed thresholds `[0]` and trial value
`t = 0` (already a member), the code's candidate pushes a duplicate and at
counter `1` decides `true`, while `XorInverseThresholds` over the set union
`[0] ∪ {0} = [0]` decides `false` — so the claimed agreement (and in
particular its parenthetical about an already-present `t`) fails. -/
theorem candidate_union_counterexample :
    xorInverseThresholdsDecide ([0] ++ [0]) 1 ≠
    xorInverseThresholdsDecide (unionThresholds [0] 0) 1 := by decide

/-- C2 (amended): the candidate evaluated at index `t` is
`XorInverseThresholds` of `thresholds` with `t` pushed; when `t` is not a
member of `thresholds` it decides, for every counter, exactly as
`XorInverseThresholds` over the set union `thresholds ∪ {t}`, but when `t`
is already a member (exactly once) it decides as `XorInverseThresholds`
over `thresholds` with `t` removed — not as
`XorInverseThresholds(thresholds)`. -/
theorem candidate_push_decide (ts : List ℕ) (t c : ℕ) :
    (t ∉ ts →
      xorInverseThresholdsDecide (ts ++ [t]) c =
      xorInverseThresholdsDecide (unionThresholds ts t) c) ∧
    (ts.count t = 1 →
      xorInverseThresholdsDecide (ts ++ [t]) c =
      xorInverseThresholdsDecide (ts.erase t) c) := by
  constructor
  · intro h
    unfold unionThresholds
    rw [if_neg h]
  · intro h
    exact xorInverse_append_erase ts t (by rw [← List.count_pos_iff]; omega) c

/-- Witness for C2 (amended) at the concrete inputs `ts = [1], t = 0`
(absent) and `ts = [0], t = 0` (present once). -/
theorem candidate_push_decide_witness :
    (xorInverseThresholdsDecide ([1] ++ [0]) 2 =
      xorInverseThresholdsDecide (unionThresholds [1] 0) 2) ∧
    (xorInverseThresholdsDecide ([0] ++ [0]) 1 =
      xorInverseThresholdsDecide (([0] : List ℕ).erase 0) 1) :=
  ⟨(candidate_push_decide [1] 0 2).1 (by decide),
   (candidate_push_decide [0] 0 1).2 (by decide)⟩

/-- C5: the toggle operation (remove the index if present, push it if
absent) applied twice with the same index returns the threshold set to its
original state as a set: membership is unchanged. -/
theorem toggle_toggle_mem (S : List ℕ) (i x : ℕ) :
    x ∈ toggle (toggle S i) i ↔ x ∈ S := by
  unfold toggle
  by_cases h : i ∈ S
  · rw [if_pos h]
    have hni : i ∉ S.filter (fun y => y != i) := by simp
    rw [if_neg hni]
    simp only [List.mem_append, List.mem_filter, bne_iff_ne, ne_eq,
      List.mem_singleton]
    constructor
    · rintro (⟨hxS, _⟩ | rfl)
      · exact hxS
      · exact h
    · intro hxS
      by_cases hx : x = i
      · exact Or.inr hx
      · exact Or.inl ⟨hxS, hx⟩
  · rw [if_neg h]
    have hmi : i ∈ S ++ [i] := by simp
    rw [if_pos hmi]
    simp only [List.mem_filter, List.mem_append, bne_iff_ne, ne_eq,
      List.mem_singleton]
    constructor
    · rintro ⟨hxS | rfl, hne⟩
      · exact hxS
      · exact (hne rfl).elim
    · intro hxS
      exact ⟨Or.inl hxS, fun he => h (he ▸ hxS)⟩

lemma foldl_maxByKeyStep_some : ∀ (ps : List (ℕ × ℕ)) (q : ℕ × ℕ),
    ps.foldl maxByKeyStep (some q) = some (ps.foldl maxPairStep q)
  | [], _ => rfl
  | p :: ps, q => by
    simp only [List.foldl_cons, maxByKeyStep, maxPairStep]
    by_cases h : q.2 > p.2
    · rw [if_pos h, if_pos h]
      exact foldl_maxByKeyStep_some ps q
    · rw [if_neg h, if_neg h]
      exact foldl_maxByKeyStep_some ps p

lemma foldl_maxPair_spec (as : List ℕ) : ∀ (n : ℕ) (q : ℕ × ℕ),
    q.2 ≤ (List.foldl maxPairStep q (as.enumFrom n)).2 ∧
    (∀ (j : ℕ) (v : ℕ), as[j]? = some v → v ≤ (List.foldl maxPairStep q (as.enumFrom n)).2) ∧
    ((List.foldl maxPairStep q (as.enumFrom n) = q ∧
        ∀ (j : ℕ) (v : ℕ), as[j]? = some v → v < q.2) ∨
      (∃ k, (List.foldl maxPairStep q (as.enumFrom n)).1 = n + k ∧
        as[k]? = some (List.foldl maxPairStep q (as.enumFrom n)).2 ∧
        ∀ (j : ℕ) (v : ℕ), k < j → as[j]? = some v →
          v < (List.foldl maxPairStep q (as.enumFrom n)).2)) := by
  induction as with
  | nil =>
    intro n q
    refine ⟨le_refl _, ?_, Or.inl ⟨rfl, ?_⟩⟩ <;> intro j v hv <;> simp at hv
  | cons a as ih =>
    intro n q
    rw [List.enumFrom_cons, List.foldl_cons]
    by_cases hqa : q.2 > a
    · have hq' : maxPairStep q (n, a) = q := if_pos hqa
      rw [hq']
      obtain ⟨ih1, ih2, ih3⟩ := ih (n + 1) q
      refine ⟨ih1, ?_, ?_⟩
      · intro j v hv
        cases j with
        | zero =>
          simp only [List.getElem?_cons_zero, Option.some.injEq] at hv
          exact le_trans (le_of_lt (hv ▸ hqa)) ih1
        | succ j =>
          exact ih2 j v (by simpa using hv)
      · rcases ih3 with ⟨hfix, hall⟩ | ⟨k, hk1, hk2, hk3⟩
        · left
          refine ⟨hfix, ?_⟩
          intro j v hv
          cases j with
          | zero =>
            simp only [List.getElem?_cons_zero, Option.some.injEq] at hv
            exact hv ▸ hqa
          | succ j =>
            exact hall j v (by simpa using hv)
        · right
          refine ⟨k + 1, by omega, by simpa using hk2, ?_⟩
          intro j v hj hv
          cases j with
          | zero => omega
          | succ j =>
            exact hk3 j v (by omega) (by simpa using hv)
    · have hq' : maxPairStep q (n, a) = (n, a) := if_neg hqa
      rw [hq']
      obtain ⟨ih1, ih2, ih3⟩ := ih (n + 1) (n, a)
      have hqa' : q.2 ≤ a := le_of_not_lt hqa
      refine ⟨le_trans hqa' ih1, ?_, ?_⟩
      · intro j v hv
        cases j with
        | zero =>
          simp only [List.getElem?_cons_zero, Option.some.injEq] at hv
          exact hv ▸ ih1
        | succ j =>
          exact ih2 j v (by simpa using hv)
      · right
        rcases ih3 with ⟨hfix, hall⟩ | ⟨k, hk1, hk2, hk3⟩
        · refine ⟨0, ?_, ?_, ?_⟩
          · rw [hfix]
            simp
          · rw [hfix]
            simp
          · intro j v hj hv
            cases j with
            | zero => omega
            | succ j =>
              rw [hfix]
              exact hall j v (by simpa using hv)
        · refine ⟨k + 1, by omega, by simpa using hk2, ?_⟩
          intro j v hj hv
          cases j with
          | zero => omega
          | succ j =>
            exact hk3 j v (by omega) (by simpa using hv)

/-- C3: for every non-empty result vector, the optimizer's selection returns
an index holding a maximal drop count, and every entry at a strictly higher
index is strictly below that maximum — i.e. ties are broken towards the
highest (last-occurring) maximal index. -/
theorem maxByKeyLast_argmax (l : List ℕ) (h : l ≠ []) :
    ∃ i m, maxByKeyLast l = some (i, m) ∧ l[i]? = some m ∧
      (∀ (j : ℕ) (v : ℕ), l[j]? = some v → v ≤ m) ∧
      (∀ (j : ℕ) (v : ℕ), i < j → l[j]? = some v → v < m) := by
  match l, h with
  | a :: as, _ =>
    have hfold : maxByKeyLast (a :: as)
        = some (List.foldl maxPairStep (0, a) (as.enumFrom 1)) := by
      unfold maxByKeyLast
      rw [List.enum_cons, List.foldl_cons]
      exact foldl_maxByKeyStep_some _ _
    obtain ⟨h1, h2, h3⟩ := foldl_maxPair_spec as 1 (0, a)
    set r := List.foldl maxPairStep (0, a) (as.enumFrom 1) with hrdef
    refine ⟨r.1, r.2, by rw [hfold], ?_, ?_, ?_⟩
    · rcases h3 with ⟨hfix, _⟩ | ⟨k, hk1, hk2, _⟩
      · rw [hfix]
        simp
      · rw [hk1]
        have hcomm : 1 + k = k + 1 := by omega
        rw [hcomm, List.getElem?_cons_succ]
        exact hk2
    · intro j v hv
      cases j with
      | zero =>
        simp only [List.getElem?_cons_zero, Option.some.injEq] at hv
        exact hv ▸ h1
      | succ j =>
        exact h2 j v (by simpa using hv)
    · intro j v hj hv
      rcases h3 with ⟨hfix, hall⟩ | ⟨k, hk1, hk2, hk3⟩
      · cases j with
        | zero =>
          rw [hfix] at hj
          exact absurd hj (lt_irrefl 0)
        | succ j =>
          rw [hfix]
          exact hall j v (by simpa using hv)
      · cases j with
        | zero =>
          rw [hk1] at hj
          omega
        | succ j =>
          rw [hk1] at hj
          exact hk3 j v (by omega) (by simpa using hv)

/-- C4: in any optimizer round whose selected index equals
`max_counter_value` (the sentinel index, the round having
`max_counter_value + 1` candidates), the search halts immediately and
returns that round's result vector together with the threshold set exactly
as it stood at the start of the round — no toggle is applied. -/
theorem searchLoop_halts_at_sentinel (args : Args)
    (roundRolls : ℕ → ℕ → ℕ → ℚ) (fuel : ℕ) (thresholds : List ℕ) (m : ℕ)
    (h : maxByKeyLast (runRound args thresholds (roundRolls fuel))
      = some (args.max_counter_value, m)) :
    searchLoop args roundRolls (fuel + 1) thresholds
      = some (runRound args thresholds (roundRolls fuel), thresholds) := by
  simp only [searchLoop, h, Nat.add_sub_cancel, if_pos]

/-- Witness for C4: with `max_counter_value = 1`, zero drop rates and two
steps, both candidates score 2, the tie-break selects the sentinel index 1,
and the one-round search halts with the empty threshold set unchanged. -/
theorem searchLoop_halts_at_sentinel_witness :
    searchLoop ⟨0, 0, 1, 2⟩ (fun _ _ _ => 0) 1 [] = some ([2, 2], []) :=
  searchLoop_halts_at_sentinel ⟨0, 0, 1, 2⟩ (fun _ _ _ => 0) 0 [] 2 (by decide)

/-- Witness for C3 at the spec's example result vector `[5, 5, 3]`: the
selected index is 1 (the last maximum), not 0. -/
theorem maxByKeyLast_argmax_witness :
    maxByKeyLast [5, 5, 3] = some (1, 5) ∧
    (∃ i m, maxByKeyLast [5, 5, 3] = some (i, m) ∧ [5, 5, 3][i]? = some m ∧
      (∀ (j : ℕ) (v : ℕ), [5, 5, 3][j]? = some v → v ≤ m) ∧
      (∀ (j : ℕ) (v : ℕ), i < j → [5, 5, 3][j]? = some v → v < m)) :=
  ⟨rfl, maxByKeyLast_argmax [5, 5, 3] (by simp)⟩

lemma pity_only_state (args : Args) (strat : ℕ → Bool) (rolls : ℕ → ℚ)
    (hM : 1 ≤ args.max_counter_value) (hb : args.base_drop_rate = 0)
    (hc : args.counter_multiplier = 0) (hr : ∀ i, 0 ≤ rolls i) (n : ℕ) :
    (simStep args strat rolls)^[n] { counter := 0, drops := 0, rollIdx := 0 }
      = { counter := n % args.max_counter_value,
          drops := n / args.max_counter_value,
          rollIdx := n - n / args.max_counter_value } := by
  induction n with
  | zero =>
    simp
  | succ n ih =>
    rw [Function.iterate_succ_apply', ih]
    have hlt : n % args.max_counter_value < args.max_counter_value :=
      Nat.mod_lt _ (by omega)
    have hdm := Nat.div_add_mod n args.max_counter_value
    by_cases hp : n % args.max_counter_value + 1 ≥ args.max_counter_value
    · have hn1 : n + 1
          = args.max_counter_value * (n / args.max_counter_value + 1) := by
        rw [Nat.mul_succ]
        omega
      have hmod : (n + 1) % args.max_counter_value = 0 := by
        rw [hn1]
        exact Nat.mul_mod_right _ _
      have hdiv : (n + 1) / args.max_counter_value
          = n / args.max_counter_value + 1 := by
        rw [hn1]
        exact Nat.mul_div_cancel_left _ (by omega)
      simp only [simStep]
      rw [if_pos hp]
      simp only [SimState.mk.injEq]
      exact ⟨hmod.symm, hdiv.symm, by rw [hdiv]; exact (Nat.succ_sub_succ _ _).symm⟩
    · have h1 : n % args.max_counter_value + 1 < args.max_counter_value := by
        omega
      have hn1 : n + 1 = args.max_counter_value * (n / args.max_counter_value)
          + (n % args.max_counter_value + 1) := by
        omega
      have hmod : (n + 1) % args.max_counter_value
          = n % args.max_counter_value + 1 := by
        rw [hn1, Nat.mul_add_mod, Nat.mod_eq_of_lt h1]
      have hdiv : (n + 1) / args.max_counter_value
          = n / args.max_counter_value := by
        rw [hn1, Nat.mul_add_div (by omega), Nat.div_eq_of_lt h1, Nat.add_zero]
      simp only [simStep]
      rw [if_neg hp, hb, hc]
      have hle : n / args.max_counter_value ≤ n := Nat.div_le_self n _
      split_ifs with hact hroll hroll
      · exfalso
        rw [zero_mul, add_zero] at hroll
        exact absurd hroll (not_lt.2 (hr _))
      · simp only [SimState.mk.injEq]
        exact ⟨hmod.symm, hdiv.symm,
          by rw [hdiv]; exact (Nat.sub_add_comm hle).symm⟩
      · exfalso
        exact absurd hroll (not_lt.2 (hr _))
      · simp only [SimState.mk.injEq]
        exact ⟨hmod.symm, hdiv.symm,
          by rw [hdiv]; exact (Nat.sub_add_comm hle).symm⟩

/-- C6: with `base_drop_rate = 0` and `counter_multiplier = 0`, no random
roll can succeed, so for every strategy and every roll stream drawn from
`[0, 1)` the simulation returns exactly
`steps_per_strategy / max_counter_value` (integer division), the number of
pity drops. -/
theorem pity_only_drop_count (args : Args) (strat : ℕ → Bool)
    (rolls : ℕ → ℚ) (hM : 1 ≤ args.max_counter_value)
    (hb : args.base_drop_rate = 0) (hc : args.counter_multiplier = 0)
    (hr : ∀ i, 0 ≤ rolls i ∧ rolls i < 1) :
    simulate_strategy args strat rolls
      = args.sim_steps_per_strategy / args.max_counter_value := by
  unfold simulate_strategy
  rw [pity_only_state args strat rolls hM hb hc (fun i => (hr i).1)
    args.sim_steps_per_strategy]

/-- Witness for C6 at the spec's boundary examples: `M = 3, S = 9` gives 3
drops and `M = 3, S = 10` also gives 3 drops. -/
theorem pity_only_drop_count_witness :
    simulate_strategy ⟨0, 0, 3, 9⟩ (fun _ => true) (fun _ => 0) = 3 ∧
    simulate_strategy ⟨0, 0, 3, 10⟩ (fun _ => true) (fun _ => 0) = 3 :=
  ⟨pity_only_drop_count ⟨0, 0, 3, 9⟩ (fun _ => true) (fun _ => 0)
      (by decide) rfl rfl (fun i => by constructor <;> norm_num),
   pity_only_drop_count ⟨0, 0, 3, 10⟩ (fun _ => true) (fun _ => 0)
      (by decide) rfl rfl (fun i => by constructor <;> norm_num)⟩

lemma always_drop_state (args : Args) (strat : ℕ → Bool) (rolls : ℕ → ℚ)
    (hb : 0 < args.base_drop_rate) (hm : 0 ≤ args.counter_multiplier)
    (hr : ∀ i, rolls i = 0) (n : ℕ) :
    ((simStep args strat rolls)^[n]
      { counter := 0, drops := 0, rollIdx := 0 }).drops = n := by
  induction n with
  | zero =>
    simp
  | succ n ih =>
    rw [Function.iterate_succ_apply']
    set s := (simStep args strat rolls)^[n]
      { counter := 0, drops := 0, rollIdx := 0 } with hs
    simp only [simStep]
    split_ifs with hp hact hroll hroll
    · simpa using ih
    · simpa using ih
    · exfalso
      rw [hr] at hroll
      have hpos : (0 : ℚ)
          < args.base_drop_rate
            + args.counter_multiplier * ((s.counter + 1 : ℕ) : ℚ) :=
        add_pos_of_pos_of_nonneg hb (mul_nonneg hm (Nat.cast_nonneg _))
      exact hroll hpos
    · simpa using ih
    · exfalso
      rw [hr] at hroll
      exact hroll hb

/-- C7 (amended): for every strategy and every configuration with
`base_drop_rate > 0` and `counter_multiplier ≥ 0`, if every random draw
returns 0 then the simulation yields a drop on every iteration — via the
pity path or the roll comparison `0 < drop_chance` — and returns exactly
`steps_per_strategy`. -/
theorem forced_roll_saturation (args : Args) (strat : ℕ → Bool)
    (rolls : ℕ → ℚ) (hb : 0 < args.base_drop_rate)
    (hm : 0 ≤ args.counter_multiplier) (hr : ∀ i, rolls i = 0) :
    simulate_strategy args strat rolls = args.sim_steps_per_strategy :=
  always_drop_state args strat rolls hb hm hr args.sim_steps_per_strategy

/-- C7 counterexample: the claim quantifies over every configuration with
`base_drop_rate > 0`, but with `counter_multiplier = -2` (negative
`drop_chance` is explicitly allowed, unclamped) an always-active strategy
and all rolls forced to 0 yields no drop on the single simulated kill
(`drop_chance = 1 - 2 = -1` and `0 < -1` fails), so simulate returns 0,
not `steps_per_strategy = 1`. -/
theorem forced_roll_saturation_counterexample :
    (0 : ℚ) < 1 ∧
    simulate_strategy ⟨1, -2, 10, 1⟩ (fun _ => true) (fun _ => 0) ≠ 1 := by
  constructor
  · norm_num
  · simp only [simulate_strategy, Function.iterate_one, simStep]
    norm_num

/-- Witness for C7 (amended) at `base_drop_rate = 1`,
`counter_multiplier = 0`, `max_counter_value = 10`, 7 steps, an
always-active strategy, and the all-zero roll stream. -/
theorem forced_roll_saturation_witness :
    simulate_strategy ⟨1, 0, 10, 7⟩ (fun _ => true) (fun _ => 0) = 7 :=
  forced_roll_saturation ⟨1, 0, 10, 7⟩ (fun _ => true) (fun _ => 0)
    (by norm_num) (by norm_num) (fun i => rfl)

/-- C10: with `max_counter_value ≥ 1`, the counter is strictly below
`max_counter_value` at the start of every iteration — it starts at 0 and is
reset to 0 whenever it would reach `max_counter_value` — so the strategy's
decision function (applied in each step to exactly this start-of-iteration
counter) is only ever invoked on values in `[0, max_counter_value - 1]`. -/
theorem counter_lt_max_invariant (args : Args) (strat : ℕ → Bool)
    (rolls : ℕ → ℚ) (h : 1 ≤ args.max_counter_value) (n : ℕ) :
    ((simStep args strat rolls)^[n]
      { counter := 0, drops := 0, rollIdx := 0 }).counter
      < args.max_counter_value := by
  induction n with
  | zero =>
    simpa using h
  | succ n ih =>
    rw [Function.iterate_succ_apply']
    set s := (simStep args strat rolls)^[n]
      { counter := 0, drops := 0, rollIdx := 0 } with hs
    simp only [simStep]
    split_ifs with hp hact hroll hroll
    · simpa using h
    · simpa using h
    · simp only []
      omega
    · simp only []
      omega
    · simp only []
      omega

/-- Witness for C10 at a concrete configuration with
`max_counter_value = 3` after 5 iterations. -/
theorem counter_lt_max_invariant_witness :
    ((simStep ⟨0, 0, 3, 100⟩ (fun _ => false) (fun _ => 0))^[5]
      { counter := 0, drops := 0, rollIdx := 0 }).counter < 3 :=
  counter_lt_max_invariant ⟨0, 0, 3, 100⟩ (fun _ => false) (fun _ => 0)
    (by decide) 5

/-- C8 (modelled from the spec): the non-search mode is a single evaluation
sweep, with no optimizer round and no toggle: its result vector has one
entry per candidate index in `0..=max_counter_value`, and the candidate at
index `i` is simulated under exactly the code's
`NaiveInverseThreshold(i)` decision rule, active iff `counter < i`. -/
theorem nonSearchSweep_curve (args : Args) (rolls : ℕ → ℕ → ℚ) :
    (nonSearchSweep args rolls).length = args.max_counter_value + 1 ∧
    nonSearchSweep args rolls
      = (List.range (args.max_counter_value + 1)).map
          (fun i => simulate_strategy args
            (naiveInverseThresholdDecide i) (rolls i)) :=
  ⟨by simp [nonSearchSweep], rfl⟩
